import Mathlib

/-!
Shallow embedding of the Bravyi-Kitaev transform from
`src/fermilib/transforms/_bravyi_kitaev.py`, together with models of the
collaborators the module imports but whose code is not part of the sources:
the Fenwick tree (`fermilib.transforms._fenwick_tree`), the qubit/fermion
operator algebra (`projectq.ops.QubitOperator` and the fermionic operator
type) and `count_qubits` (`fermilib.utils`).  Those models are taken from
the specification and are marked as such in their doc comments.
-/

/-- Powers of two as integers, by structural recursion so that the kernel
evaluates them. -/
def pow2 : ℕ → ℤ
  | 0 => 1
  | n + 1 => 2 * pow2 n

/-- Modelled from the spec: the complex coefficients of the operator
algebras.  The transform only combines the input coefficients with 1/2,
plus-or-minus i/2 and the Pauli phases, so the dyadic complex rationals
(a + b·i) / 2 ^ e form a coefficient ring closed under every operation the
code performs, with decidable equality on canonical representatives. -/
structure CQ where
  a : ℤ
  b : ℤ
  e : ℕ
  deriving DecidableEq, Repr

/-- Reduce a dyadic complex representation to canonical form (exponent zero
or numerators not both even). -/
def normCQ : ℤ → ℤ → ℕ → CQ
  | x, y, 0 => ⟨x, y, 0⟩
  | x, y, n + 1 =>
    if x % 2 = 0 ∧ y % 2 = 0 then normCQ (x / 2) (y / 2) n else ⟨x, y, n + 1⟩

instance : Zero CQ := ⟨⟨0, 0, 0⟩⟩

instance : One CQ := ⟨⟨1, 0, 0⟩⟩

instance : Neg CQ := ⟨fun x => ⟨-x.a, -x.b, x.e⟩⟩

instance : Add CQ :=
  ⟨fun x y => normCQ (x.a * pow2 y.e + y.a * pow2 x.e) (x.b * pow2 y.e + y.b * pow2 x.e)
    (x.e + y.e)⟩

instance : Mul CQ :=
  ⟨fun x y => normCQ (x.a * y.a - x.b * y.b) (x.a * y.b + x.b * y.a) (x.e + y.e)⟩

/-- Semantic zero test: a coefficient is zero exactly when both numerators
vanish (the model of the algebra's dropping of vanished coefficients). -/
def CQ.isZero (x : CQ) : Bool := x.a == 0 && x.b == 0

/-- Single-qubit Pauli letters. -/
inductive Pauli where
  | X
  | Y
  | Z
  deriving DecidableEq, Repr

/-- Modelled from the spec: the single-qubit Pauli product table of the
external qubit-operator algebra (XX=YY=ZZ=I, XY=iZ, YX=-iZ, YZ=iX, ZY=-iX,
ZX=iY, XZ=-iY), returning a phase and the resulting letter (`none` for I). -/
def mulPauli : Pauli → Pauli → CQ × Option Pauli
  | Pauli.X, Pauli.X => (1, none)
  | Pauli.X, Pauli.Y => (⟨0, 1, 0⟩, some Pauli.Z)
  | Pauli.X, Pauli.Z => (⟨0, -1, 0⟩, some Pauli.Y)
  | Pauli.Y, Pauli.X => (⟨0, -1, 0⟩, some Pauli.Z)
  | Pauli.Y, Pauli.Y => (1, none)
  | Pauli.Y, Pauli.Z => (⟨0, 1, 0⟩, some Pauli.X)
  | Pauli.Z, Pauli.X => (⟨0, 1, 0⟩, some Pauli.Y)
  | Pauli.Z, Pauli.Y => (⟨0, -1, 0⟩, some Pauli.X)
  | Pauli.Z, Pauli.Z => (1, none)

/-- Insert one (qubit index, letter) factor into a list sorted by index. -/
def insertFactor (f : Nat × Pauli) : List (Nat × Pauli) → List (Nat × Pauli)
  | [] => [f]
  | g :: gs => if f.1 ≤ g.1 then f :: g :: gs else g :: insertFactor f gs

/-- Modelled from the spec: the external algebra stores a Pauli term as a set
of (qubit index, letter) pairs with at most one letter per index; we keep the
canonical index-sorted list. -/
def sortTerm (l : List (Nat × Pauli)) : List (Nat × Pauli) :=
  l.foldr insertFactor []

/-- Modelled from the spec: a qubit operator is a mapping from Pauli term to
complex coefficient, kept as an association list with distinct keys. -/
abbrev QubitOperator : Type := List (List (Nat × Pauli) × CQ)

/-- Modelled from the spec: constructing a single-Pauli-term operator from a
sequence of (qubit index, letter) pairs and a coefficient (the empty sequence
gives the identity term). -/
def QubitOperator.of (term : List (Nat × Pauli)) (coefficient : CQ) : QubitOperator :=
  [(sortTerm term, coefficient)]

/-- Modelled from the spec: accumulate one (term, coefficient) entry into a
qubit operator, combining equal Pauli terms by summing coefficients and
dropping zero-coefficient terms produced by cancellation. -/
def addTermQ : QubitOperator → List (Nat × Pauli) → CQ → QubitOperator
  | [], t, c => if c.isZero then [] else [(t, c)]
  | (s, d) :: rest, t, c =>
    if s = t then (if (d + c).isZero then rest else (s, d + c) :: rest)
    else (s, d) :: addTermQ rest t c

/-- Modelled from the spec: qubit-operator addition (term-wise coefficient
accumulation, merging identical Pauli terms). -/
def addQ (a b : QubitOperator) : QubitOperator :=
  b.foldl (fun acc tc => addTermQ acc tc.1 tc.2) a

/-- Multiply one left-hand (index, letter) factor into an index-sorted Pauli
term, reducing a colliding letter with the Pauli algebra; returns the phase
and the resulting sorted term. -/
def mulFactor (f : Nat × Pauli) : List (Nat × Pauli) → CQ × List (Nat × Pauli)
  | [] => (1, [f])
  | g :: gs =>
    if f.1 < g.1 then (1, f :: g :: gs)
    else if g.1 < f.1 then
      let r := mulFactor f gs
      (r.1, g :: r.2)
    else
      let s := mulPauli f.2 g.2
      (s.1, match s.2 with
        | none => gs
        | some u => (f.1, u) :: gs)

/-- Modelled from the spec: product of two index-sorted Pauli terms, merging
by index and reducing colliding letters with the Pauli algebra (left letter
first); returns the accumulated phase and the resulting sorted term. -/
def mulTerms (a b : List (Nat × Pauli)) : CQ × List (Nat × Pauli) :=
  a.foldr (fun f r =>
    let s := mulFactor f r.2
    (s.1 * r.1, s.2)) (1, b)

/-- Modelled from the spec: qubit-operator multiplication (term concatenation
with Pauli-algebra reduction, coefficients combined multiplicatively). -/
def mulQ (a b : QubitOperator) : QubitOperator :=
  a.foldl (fun acc t1 =>
    b.foldl (fun acc2 t2 =>
      let r := mulTerms t1.1 t2.1
      addTermQ acc2 r.2 (t1.2 * t2.2 * r.1)) acc) []

/-- Modelled from the spec: a fermionic operator is a mapping from term (an
ordered sequence of (mode index, raising-vs-lowering) pairs, `true` meaning
raising) to complex coefficient. -/
structure FermionOperator where
  terms : List (List (Nat × Bool) × CQ)
  deriving DecidableEq, Repr

/-- Modelled from the spec: `count_qubits` computes the minimum qubit count
implied by an operator, i.e. the highest referenced mode index plus one
(zero for an operator with no ladder operators). -/
def count_qubits (operator : FermionOperator) : Nat :=
  operator.terms.foldl (fun acc tc => tc.1.foldl (fun a l => max a (l.1 + 1)) acc) 0

/-- Modelled from the spec: the Fenwick index structure of
`fermilib.transforms._fenwick_tree` is not among the sources; it is fully
determined by the mode count it is built from. -/
structure FenwickTree where
  n_qubits : Nat
  deriving DecidableEq, Repr

/-- Recursive bisection over the interval [l, r) with fuel bounding the
interval width: the pivot becomes a child of `p` and roots the substructure
on [l, pivot); the rest of the interval keeps parent `p`. -/
def fenwickEdgesAux : Nat → Nat → Nat → Nat → List (Nat × Nat)
  | 0, _, _, _ => []
  | fuel + 1, l, r, p =>
    if l < r then
      ((l + r) / 2, p) ::
        (fenwickEdgesAux fuel l ((l + r) / 2) ((l + r) / 2) ++
          fenwickEdgesAux fuel ((l + r) / 2 + 1) r p)
    else []

/-- Modelled from the spec: the canonical recursive bisection building the
Bravyi-Kitaev tree over [l, r) under parent `p`, as (child, parent) edges.
The fuel `r - l` dominates the recursion depth. -/
def fenwickEdges (l r p : Nat) : List (Nat × Nat) :=
  fenwickEdgesAux (r - l) l r p

/-- Modelled from the spec: the tree's (child, parent) edges; index
`n_qubits - 1` is the root of the bisection of the remaining indices. -/
def FenwickTree.edges (t : FenwickTree) : List (Nat × Nat) :=
  if t.n_qubits = 0 then [] else fenwickEdges 0 (t.n_qubits - 1) (t.n_qubits - 1)

/-- Modelled from the spec: the parent of a node, if any. -/
def parentOf (t : FenwickTree) (j : Nat) : Option Nat :=
  (t.edges.find? (fun e => e.1 == j)).map (fun e => e.2)

/-- Walk the parent chain starting above `j`, with enough fuel to exhaust
any chain in the tree. -/
def ancestorChase (t : FenwickTree) : Nat → Nat → List Nat
  | 0, _ => []
  | fuel + 1, j =>
    match parentOf t j with
    | none => []
    | some p => p :: ancestorChase t fuel p

/-- Modelled from the spec: the update set of `j` is the ordered sequence of
strict ancestors of `j` in the tree. -/
def FenwickTree.get_update_set (t : FenwickTree) (j : Nat) : List Nat :=
  ancestorChase t t.n_qubits j

/-- Modelled from the spec: the children of node `j` under the tree's
branching rule. -/
def FenwickTree.get_children_set (t : FenwickTree) (j : Nat) : List Nat :=
  (t.edges.filter (fun e => e.2 == j)).map (fun e => e.1)

/-- Modelled from the spec: the remainder set C(j) is the update set
restricted to the ancestors' direct children with index below `j`. -/
def FenwickTree.get_remainder_set (t : FenwickTree) (j : Nat) : List Nat :=
  ((t.get_update_set j).map (fun a => (t.get_children_set a).filter (fun c => c < j))).flatten

/-- Modelled from the spec: the parity set of `j`, covering the occupation
parity of modes 0..j-1: the remainder set together with j's own children. -/
def FenwickTree.get_parity_set (t : FenwickTree) (j : Nat) : List Nat :=
  t.get_remainder_set j ++ t.get_children_set j

/-- Sum with the accumulate operator, from `inline_sum` in the source. -/
def inline_sum (seed : QubitOperator) (summands : List QubitOperator) : QubitOperator :=
  summands.foldl addQ seed

/-- Product with the accumulate operator, from `inline_product` in the
source. -/
def inline_product (seed : QubitOperator) (factors : List QubitOperator) : QubitOperator :=
  factors.foldl mulQ seed

/-- `_transform_ladder_operator` from the source: the Bravyi-Kitaev image of
one ladder operator (mode index, raising flag), as the sum of its "c" and
"d" majorana components. -/
def _transform_ladder_operator (ladder_operator : Nat × Bool) (fenwick_tree : FenwickTree) :
    QubitOperator :=
  let index := ladder_operator.1
  let parity_set := fenwick_tree.get_parity_set index
  let ancestors := fenwick_tree.get_update_set index
  let ancestor_children := fenwick_tree.get_remainder_set index
  let d_coefficient : CQ := if ladder_operator.2 then ⟨0, -1, 1⟩ else ⟨0, 1, 1⟩
  let d_majorana_component := QubitOperator.of
    ((ladder_operator.1, Pauli.Y) ::
      (ancestor_children.map (fun k => (k, Pauli.Z)) ++ ancestors.map (fun k => (k, Pauli.X))))
    d_coefficient
  let c_majorana_component := QubitOperator.of
    ((ladder_operator.1, Pauli.X) ::
      (parity_set.map (fun k => (k, Pauli.Z)) ++ ancestors.map (fun k => (k, Pauli.X))))
    ⟨1, 0, 1⟩
  addQ c_majorana_component d_majorana_component

/-- `_transform_operator_term` from the source: multiply, in left-to-right
term order, the per-ladder-operator qubit expressions, seeded with the
identity Pauli term scaled by the term's coefficient. -/
def _transform_operator_term (term : List (Nat × Bool)) (coefficient : CQ)
    (fenwick_tree : FenwickTree) : QubitOperator :=
  inline_product (QubitOperator.of [] coefficient)
    (term.map (fun l => _transform_ladder_operator l fenwick_tree))

/-- `bravyi_kitaev` from the source: resolve the qubit count, reject a count
below `count_qubits`, build the Fenwick tree and sum the transformed terms. -/
def bravyi_kitaev (operator : FermionOperator) (n_qubits : Option Nat) :
    Except String QubitOperator :=
  if n_qubits.getD (count_qubits operator) < count_qubits operator then
    Except.error "Invalid number of qubits specified."
  else
    Except.ok (inline_sum []
      (operator.terms.map (fun tc =>
        _transform_operator_term tc.1 tc.2 ⟨n_qubits.getD (count_qubits operator)⟩)))

/-- The call as a state transformer on the caller's operator: the body of
`bravyi_kitaev` only ever reads `operator.terms`, never assigns to the
operator or its term mapping, so the store after the call pairs the unchanged
operator with the returned value. -/
def bravyi_kitaev_call (operator : FermionOperator) (n_qubits : Option Nat) :
    FermionOperator × Except String QubitOperator :=
  (operator, bravyi_kitaev operator n_qubits)

theorem mem_insertFactor (x f : Nat × Pauli) (l : List (Nat × Pauli)) :
    x ∈ insertFactor f l ↔ x = f ∨ x ∈ l := by
  induction l with
  | nil => simp [insertFactor]
  | cons g gs ih =>
    simp only [insertFactor]
    split
    · simp [List.mem_cons]
    · simp only [List.mem_cons, ih]
      tauto

theorem mem_sortTerm (x : Nat × Pauli) (l : List (Nat × Pauli)) :
    x ∈ sortTerm l ↔ x ∈ l := by
  induction l with
  | nil => simp [sortTerm]
  | cons f fs ih =>
    show x ∈ insertFactor f (sortTerm fs) ↔ _
    rw [mem_insertFactor, ih]
    simp [List.mem_cons]

theorem fenwickEdgesAux_bounds :
    ∀ fuel l r p, r ≤ p → ∀ e ∈ fenwickEdgesAux fuel l r p,
      l ≤ e.1 ∧ e.1 < r ∧ e.1 < e.2 := by
  intro fuel
  induction fuel with
  | zero =>
    intro l r p _ e he
    simp [fenwickEdgesAux] at he
  | succ n ih =>
    intro l r p hrp e he
    simp only [fenwickEdgesAux] at he
    by_cases h : l < r
    · rw [if_pos h] at he
      rcases List.mem_cons.mp he with rfl | he2
      · refine ⟨by omega, by omega, by simp; omega⟩
      · rcases List.mem_append.mp he2 with h1 | h2
        · have := ih l ((l + r) / 2) ((l + r) / 2) (le_refl _) e h1
          exact ⟨this.1, by omega, this.2.2⟩
        · have := ih ((l + r) / 2 + 1) r p hrp e h2
          exact ⟨by omega, this.2.1, this.2.2⟩
    · rw [if_neg h] at he
      simp at he

theorem edges_bounds (t : FenwickTree) (e : Nat × Nat) (he : e ∈ t.edges) :
    e.1 < e.2 ∧ e.1 + 1 < t.n_qubits := by
  unfold FenwickTree.edges at he
  by_cases h : t.n_qubits = 0
  · rw [if_pos h] at he; simp at he
  · rw [if_neg h] at he
    have := fenwickEdgesAux_bounds (t.n_qubits - 1 - 0) 0 (t.n_qubits - 1)
      (t.n_qubits - 1) (le_refl _) e he
    exact ⟨this.2.2, by omega⟩

theorem parentOf_gt (t : FenwickTree) (j p : Nat) (h : parentOf t j = some p) : j < p := by
  unfold parentOf at h
  cases hf : t.edges.find? (fun e => e.1 == j) with
  | none => rw [hf] at h; simp at h
  | some e =>
    rw [hf] at h
    have h2 : e.2 = p := by simpa using h
    have hmem : e ∈ t.edges := List.mem_of_find?_eq_some hf
    have hpred := List.find?_some hf
    have h1 : e.1 = j := by simpa using hpred
    have := (edges_bounds t e hmem).1
    omega

theorem ancestorChase_gt (t : FenwickTree) :
    ∀ fuel j x, x ∈ ancestorChase t fuel j → j < x := by
  intro fuel
  induction fuel with
  | zero => intro j x hx; simp [ancestorChase] at hx
  | succ n ih =>
    intro j x hx
    unfold ancestorChase at hx
    cases hp : parentOf t j with
    | none => rw [hp] at hx; simp at hx
    | some p =>
      rw [hp] at hx
      rcases List.mem_cons.mp hx with rfl | hx2
      · exact parentOf_gt t j x hp
      · exact Nat.lt_trans (parentOf_gt t j p hp) (ih p x hx2)

theorem update_set_gt (t : FenwickTree) (j x : Nat) (hx : x ∈ t.get_update_set j) :
    j < x :=
  ancestorChase_gt t t.n_qubits j x hx

theorem children_set_lt (t : FenwickTree) (j x : Nat) (hx : x ∈ t.get_children_set j) :
    x < j := by
  unfold FenwickTree.get_children_set at hx
  rcases List.mem_map.mp hx with ⟨e, he, rfl⟩
  have hmem := List.mem_of_mem_filter he
  have hpred := List.of_mem_filter he
  have h2 : e.2 = j := by simpa using hpred
  have := (edges_bounds t e hmem).1
  omega

theorem remainder_set_lt (t : FenwickTree) (j x : Nat) (hx : x ∈ t.get_remainder_set j) :
    x < j := by
  unfold FenwickTree.get_remainder_set at hx
  rcases List.mem_flatten.mp hx with ⟨l, hl, hxl⟩
  rcases List.mem_map.mp hl with ⟨a, _, rfl⟩
  have hpred := List.of_mem_filter hxl
  simpa using hpred

theorem parity_set_lt (t : FenwickTree) (j x : Nat) (hx : x ∈ t.get_parity_set j) :
    x < j := by
  unfold FenwickTree.get_parity_set at hx
  rcases List.mem_append.mp hx with h1 | h2
  · exact remainder_set_lt t j x h1
  · exact children_set_lt t j x h2

theorem addQ_single (s t : List (Nat × Pauli)) (c d : CQ) (hne : s ≠ t)
    (hd : d.isZero = false) :
    addQ [(s, c)] [(t, d)] = [(s, c), (t, d)] := by
  simp [addQ, addTermQ, hne, hd]

/-- The sorted "c" and "d" Pauli terms of one ladder operator differ: both
hold a letter at the mode index itself (X versus Y), and the index never
occurs in the parity, update or remainder sets. -/
theorem cterm_ne_dterm (i : Nat) (t : FenwickTree) :
    sortTerm ((i, Pauli.X) ::
        ((t.get_parity_set i).map (fun k => (k, Pauli.Z)) ++
          (t.get_update_set i).map (fun k => (k, Pauli.X)))) ≠
      sortTerm ((i, Pauli.Y) ::
        ((t.get_remainder_set i).map (fun k => (k, Pauli.Z)) ++
          (t.get_update_set i).map (fun k => (k, Pauli.X)))) := by
  intro h
  have hc : (i, Pauli.X) ∈ sortTerm ((i, Pauli.X) ::
      ((t.get_parity_set i).map (fun k => (k, Pauli.Z)) ++
        (t.get_update_set i).map (fun k => (k, Pauli.X)))) :=
    (mem_sortTerm _ _).mpr (List.mem_cons_self _ _)
  rw [h] at hc
  have hd := (mem_sortTerm _ _).mp hc
  rcases List.mem_cons.mp hd with heq | hmem
  · exact absurd heq (by simp)
  · rcases List.mem_append.mp hmem with h1 | h2
    · rcases List.mem_map.mp h1 with ⟨k, _, hk⟩
      have : Pauli.Z = Pauli.X := congrArg Prod.snd hk
      exact absurd this (by simp)
    · rcases List.mem_map.mp h2 with ⟨k, hkmem, hk⟩
      have hki : k = i := congrArg Prod.fst hk
      have := update_set_gt t i k hkmem
      omega

/-- The image of one ladder operator is literally the two-entry mapping
carrying the "c" term with coefficient 1/2 and the "d" term with coefficient
plus or minus i/2. -/
theorem ladder_components (i : Nat) (a : Bool) (t : FenwickTree) :
    _transform_ladder_operator (i, a) t =
      [(sortTerm ((i, Pauli.X) ::
          ((t.get_parity_set i).map (fun k => (k, Pauli.Z)) ++
            (t.get_update_set i).map (fun k => (k, Pauli.X)))), (⟨1, 0, 1⟩ : CQ)),
       (sortTerm ((i, Pauli.Y) ::
          ((t.get_remainder_set i).map (fun k => (k, Pauli.Z)) ++
            (t.get_update_set i).map (fun k => (k, Pauli.X)))),
        if a then (⟨0, -1, 1⟩ : CQ) else ⟨0, 1, 1⟩)] := by
  have hne := cterm_ne_dterm i t
  have hd : (if a then (⟨0, -1, 1⟩ : CQ) else ⟨0, 1, 1⟩).isZero = false := by
    cases a <;> decide
  simp only [_transform_ladder_operator, QubitOperator.of]
  exact addQ_single _ _ _ _ hne hd

/-- Claim C1: for every ladder operator (mode index i, action a) and every
built Fenwick tree, the transform returns the sum of the "c" component,
whose Pauli term is (i, X) with Z on every index of the parity set and X on
every index of the update set, with coefficient 1/2, and the "d" component,
whose Pauli term is (i, Y) with Z on every index of the remainder set and X
on every index of the update set, with coefficient i/2 when the action is
lowering and -i/2 when it is raising. -/
theorem transform_ladder_operator_majorana (i : Nat) (a : Bool) (t : FenwickTree)
    (_h : i < t.n_qubits) :
    _transform_ladder_operator (i, a) t =
      [(sortTerm ((i, Pauli.X) ::
          ((t.get_parity_set i).map (fun k => (k, Pauli.Z)) ++
            (t.get_update_set i).map (fun k => (k, Pauli.X)))), (⟨1, 0, 1⟩ : CQ)),
       (sortTerm ((i, Pauli.Y) ::
          ((t.get_remainder_set i).map (fun k => (k, Pauli.Z)) ++
            (t.get_update_set i).map (fun k => (k, Pauli.X)))),
        if a then (⟨0, -1, 1⟩ : CQ) else ⟨0, 1, 1⟩)] :=
  ladder_components i a t

/-- Witness for C1: the raising operator on mode 1 of a two-qubit tree. -/
theorem transform_ladder_operator_majorana_witness :
    1 < (FenwickTree.mk 2).n_qubits ∧
    _transform_ladder_operator (1, true) ⟨2⟩ =
      [(sortTerm ((1, Pauli.X) ::
          (((FenwickTree.mk 2).get_parity_set 1).map (fun k => (k, Pauli.Z)) ++
            ((FenwickTree.mk 2).get_update_set 1).map (fun k => (k, Pauli.X)))),
         (⟨1, 0, 1⟩ : CQ)),
       (sortTerm ((1, Pauli.Y) ::
          (((FenwickTree.mk 2).get_remainder_set 1).map (fun k => (k, Pauli.Z)) ++
            ((FenwickTree.mk 2).get_update_set 1).map (fun k => (k, Pauli.X)))),
        if true then (⟨0, -1, 1⟩ : CQ) else ⟨0, 1, 1⟩)] :=
  ⟨by decide, transform_ladder_operator_majorana 1 true ⟨2⟩ (by decide)⟩

/-- Claim C3: the qubit operator returned for one ladder operator holds
exactly two Pauli terms, the "c" and "d" majorana components; they never
merge into a single term or cancel. -/
theorem transform_ladder_operator_two_terms (i : Nat) (a : Bool) (t : FenwickTree)
    (_h : i < t.n_qubits) :
    (_transform_ladder_operator (i, a) t).length = 2 := by
  rw [ladder_components]
  rfl

/-- Witness for C3: the lowering operator on mode 0 of a one-qubit tree. -/
theorem transform_ladder_operator_two_terms_witness :
    0 < (FenwickTree.mk 1).n_qubits ∧
    (_transform_ladder_operator (0, false) ⟨1⟩).length = 2 :=
  ⟨by decide, transform_ladder_operator_two_terms 0 false ⟨1⟩ (by decide)⟩

/-- Claim C2: with an explicitly supplied qubit count k the transform fails
with the ValueError message exactly when k < count_qubits(op); the model
returns no other result in that case. -/
theorem bravyi_kitaev_rejects_iff (op : FermionOperator) (k : Nat) :
    bravyi_kitaev op (some k) = Except.error "Invalid number of qubits specified." ↔
      k < count_qubits op := by
  by_cases h : k < count_qubits op
  · simp [bravyi_kitaev, h]
  · simp [bravyi_kitaev, h]

/-- Claim C4: each term's contribution is the left-to-right product of the
per-ladder-operator expressions, seeded with the identity Pauli term scaled
by the term's coefficient, and the output is the sum of all contributions,
seeded with the zero qubit operator. -/
theorem bravyi_kitaev_fold_structure (op : FermionOperator) (k : Nat)
    (h : ¬ k < count_qubits op) :
    bravyi_kitaev op (some k) =
      Except.ok (inline_sum []
        (op.terms.map (fun tc =>
          inline_product (QubitOperator.of [] tc.2)
            (tc.1.map (fun l => _transform_ladder_operator l ⟨k⟩))))) := by
  simp [bravyi_kitaev, _transform_operator_term, h]

/-- Witness for C4: a one-term operator on one qubit. -/
theorem bravyi_kitaev_fold_structure_witness :
    ¬ 1 < count_qubits ⟨[([(0, false)], 1)]⟩ ∧
    bravyi_kitaev ⟨[([(0, false)], 1)]⟩ (some 1) =
      Except.ok (inline_sum []
        ((FermionOperator.mk [([(0, false)], 1)]).terms.map (fun tc =>
          inline_product (QubitOperator.of [] tc.2)
            (tc.1.map (fun l => _transform_ladder_operator l ⟨1⟩))))) :=
  ⟨by decide, bravyi_kitaev_fold_structure ⟨[([(0, false)], 1)]⟩ 1 (by decide)⟩

/-- Claim C5: with n_qubits omitted the transform returns the same qubit
operator as the call with n_qubits = count_qubits(op). -/
theorem bravyi_kitaev_none_eq_count (op : FermionOperator) :
    bravyi_kitaev op none = bravyi_kitaev op (some (count_qubits op)) := rfl

/-- Claim C6: on a single-mode system the lowering operator on mode 0 maps
to X/2 + iY/2 and the raising operator to X/2 - iY/2, the parity, update
and remainder sets of the sole qubit all being empty. -/
theorem bravyi_kitaev_single_mode :
    bravyi_kitaev ⟨[([(0, false)], 1)]⟩ (some 1) =
        Except.ok [([(0, Pauli.X)], ⟨1, 0, 1⟩), ([(0, Pauli.Y)], ⟨0, 1, 1⟩)] ∧
      bravyi_kitaev ⟨[([(0, true)], 1)]⟩ (some 1) =
        Except.ok [([(0, Pauli.X)], ⟨1, 0, 1⟩), ([(0, Pauli.Y)], ⟨0, -1, 1⟩)] ∧
      FenwickTree.get_parity_set ⟨1⟩ 0 = [] ∧
      FenwickTree.get_update_set ⟨1⟩ 0 = [] ∧
      FenwickTree.get_remainder_set ⟨1⟩ 0 = [] :=
  ⟨rfl, rfl, rfl, rfl, rfl⟩

/-- Claim C7: transforming the zero fermionic operator (no terms) yields
the zero (empty) qubit operator. -/
theorem bravyi_kitaev_zero_operator : bravyi_kitaev ⟨[]⟩ none = Except.ok [] := rfl

/-- Claim C8: for a fixed operator and qubit count, repeated calls return
the identical qubit operator; the embedding of the call is a pure function,
so the two calls are one value. -/
theorem bravyi_kitaev_deterministic (op : FermionOperator) (nq : Option Nat) :
    bravyi_kitaev op nq = bravyi_kitaev op nq := rfl

/-- Claim C9: the call never modifies the input operator: after any call,
failing or successful, the state pairs the caller's operator, its
term-to-coefficient mapping unchanged, with the returned value. -/
theorem bravyi_kitaev_preserves_input (op : FermionOperator) (nq : Option Nat) :
    (bravyi_kitaev_call op nq).1.terms = op.terms := rfl

/-- Claim C10: when n_qubits is omitted the inferred count always passes
the validity check, so the ValueError branch is unreachable and the call
returns a result. -/
theorem bravyi_kitaev_inferred_never_errors (op : FermionOperator) :
    (bravyi_kitaev op none).isOk = true := by
  simp [bravyi_kitaev, Except.isOk, Except.toBool]
